import Mathlib

/-!
Verification of the crafting resolution and worktable-proximity engine
described by the specification of this repository, together with the behaviour
of the two Python utilities shipped under `tools/` and `verification/`.

The crafting core (recipe catalog, inventory store, craftability
evaluator, proximity gate, crafting transaction executor) is not part of
the visible files of the repository; every definition of that core below is
modelled from the specification text (sections 3, 4 and 7) and says so in
its doc comment.  The font-subsetting script and the game-verification
script are embedded from their Python sources.
-/

/-! ## Data model (modelled from the spec, section 3) -/

/-- Modelled from the spec: `ItemKind` is a stable string identifier for an
item type. -/
abbrev ItemKind := String

/-- Modelled from the spec: `StackEntry` is `{ itemKind, quantity }` with the
invariant `quantity ≥ 1` maintained by the Inventory Store. -/
structure StackEntry where
  itemKind : ItemKind
  quantity : Nat
deriving DecidableEq, Repr

/-- Modelled from the spec: an `Inventory` is an ordered sequence of
`StackEntry` plus a fixed maximum slot capacity. -/
structure Inventory where
  entries : List StackEntry
  capacity : Nat
deriving DecidableEq, Repr

/-- Modelled from the spec: `CostItem` describes one required input of a
recipe, `{ itemKind, quantity }` with `quantity ≥ 1` after validation. -/
structure CostItem where
  itemKind : ItemKind
  quantity : Nat
deriving DecidableEq, Repr

/-- Modelled from the spec: a `Recipe` has an id, an ordered list of input
cost items and one output. -/
structure Recipe where
  id : String
  inputs : List CostItem
  output : CostItem
deriving DecidableEq, Repr

/-- Modelled from the spec: a `RecipeCatalog` is an ordered sequence of
recipes, loaded once and never mutated. -/
abbrev RecipeCatalog := List Recipe

/-- Modelled from the spec: one entry of the output of the Craftability Evaluator, `{ recipe, maxCraftable }`. -/
structure CraftableResult where
  recipe : Recipe
  maxCraftable : Nat
deriving DecidableEq, Repr

/-- Modelled from the spec: the user-facing failure reasons of a craft
attempt (`NotInRange`, `InsufficientResources`, `InventoryFull`). -/
inductive FailureReason where
  | NotInRange
  | InsufficientResources
  | InventoryFull
deriving DecidableEq, Repr

/-- Modelled from the spec: the tagged result of an Executor call,
`Success { consumed, produced }` or `Failure { reason }`. -/
inductive CraftOutcome where
  | Success (consumed : List CostItem) (produced : StackEntry)
  | Failure (reason : FailureReason)
deriving DecidableEq, Repr

/-! ## Inventory Store (modelled from the spec, section 4.2) -/

/-- Modelled from the spec: `quantityOf(itemKind)` returns the quantity of
the matching stack, 0 if absent. -/
def Inventory.quantityOf (inv : Inventory) (k : ItemKind) : Nat :=
  match inv.entries.find? (fun e => e.itemKind == k) with
  | some e => e.quantity
  | none => 0

/-- Modelled from the spec: `canAdd(itemKind, quantity)` is true if an
existing stack can absorb the amount (stacks have no size bound beyond the
slot capacity), or a free slot exists for a new stack. -/
def Inventory.canAdd (inv : Inventory) (k : ItemKind) (q : Nat) : Bool :=
  inv.entries.any (fun e => e.itemKind == k) || inv.entries.length < inv.capacity

/-- Modelled from the spec: `add(itemKind, quantity)` merges into an
existing stack if present, else appends a new entry if capacity allows,
failing with `InventoryFull` and no partial mutation otherwise. -/
def Inventory.add (inv : Inventory) (k : ItemKind) (q : Nat) :
    Except FailureReason Inventory :=
  if inv.entries.any (fun e => e.itemKind == k) then
    .ok { inv with
          entries := inv.entries.map (fun e =>
            if e.itemKind == k then { e with quantity := e.quantity + q } else e) }
  else if inv.entries.length < inv.capacity then
    .ok { inv with entries := inv.entries ++ [{ itemKind := k, quantity := q }] }
  else
    .error .InventoryFull

/-- Modelled from the spec: `remove(itemKind, quantity)` decrements the
matching stack, failing with `InsufficientResources` if the quantity
exceeds the stack or the stack is absent (no mutation on failure), and
removing the entry entirely if it reaches zero. -/
def Inventory.remove (inv : Inventory) (k : ItemKind) (q : Nat) :
    Except FailureReason Inventory :=
  match inv.entries.find? (fun e => e.itemKind == k) with
  | none => .error .InsufficientResources
  | some e =>
    if e.quantity < q then
      .error .InsufficientResources
    else if e.quantity == q then
      .ok { inv with entries := inv.entries.filter (fun x => !(x.itemKind == k)) }
    else
      .ok { inv with
            entries := inv.entries.map (fun x =>
              if x.itemKind == k then { x with quantity := x.quantity - q } else x) }

/-- Modelled from the spec: step 5 of the Executor removes, for each input, the
required quantity in sequence; an error aborts (it cannot occur on the
pre-validated path). -/
def Inventory.removeList : Inventory → List (ItemKind × Nat) →
    Except FailureReason Inventory
  | inv, [] => .ok inv
  | inv, (k, q) :: rest =>
    match inv.remove k q with
    | .error e => .error e
    | .ok inv1 => inv1.removeList rest

/-- Modelled from the spec: the invariants of the Inventory Store — every stack
has quantity at least 1, at most one stack per distinct item kind, and the
entry count never exceeds the slot capacity. -/
def InvWF (inv : Inventory) : Prop :=
  (∀ e ∈ inv.entries, 1 ≤ e.quantity) ∧
  (inv.entries.map StackEntry.itemKind).Nodup ∧
  inv.entries.length ≤ inv.capacity

instance (inv : Inventory) : Decidable (InvWF inv) := by
  unfold InvWF; infer_instance

/-! ## Recipe Catalog (modelled from the spec, sections 3 and 4.1) -/

/-- Modelled from the spec: a raw recipe-definition cost item as handed to
`load`, whose quantity is an unvalidated integer. -/
structure CostItemDef where
  itemKind : ItemKind
  quantity : Int
deriving DecidableEq, Repr

/-- Modelled from the spec: a raw recipe definition as handed to `load`. -/
structure RecipeDef where
  id : String
  inputs : List CostItemDef
  output : CostItemDef
deriving DecidableEq, Repr

/-- Modelled from the spec: the startup-time fatal error of `load`. -/
inductive LoadError where
  | ValidationError
deriving DecidableEq, Repr

/-- True when the list has no repeated item kind. -/
def dupFree : List ItemKind → Bool
  | [] => true
  | k :: rest => !rest.contains k && dupFree rest

/-- Modelled from the spec: a recipe definition is valid when it has at
least one input, no zero or negative quantity, no duplicate input item
kind, and an output item kind absent from its inputs. -/
def RecipeDef.valid (d : RecipeDef) : Bool :=
  !d.inputs.isEmpty &&
  d.inputs.all (fun c => decide (0 < c.quantity)) &&
  decide (0 < d.output.quantity) &&
  dupFree (d.inputs.map CostItemDef.itemKind) &&
  d.inputs.all (fun c => !(c.itemKind == d.output.itemKind))

/-- Conversion of a validated definition into a catalog recipe. -/
def toRecipe (d : RecipeDef) : Recipe :=
  { id := d.id,
    inputs := d.inputs.map (fun c => { itemKind := c.itemKind, quantity := c.quantity.toNat }),
    output := { itemKind := d.output.itemKind, quantity := d.output.quantity.toNat } }

/-- Modelled from the spec: `load(definitions)` fails with
`ValidationError` if any recipe definition is invalid, and otherwise
returns the immutable catalog in definition order. -/
def load (definitions : List RecipeDef) : Except LoadError RecipeCatalog :=
  if definitions.all RecipeDef.valid then
    .ok (definitions.map toRecipe)
  else
    .error .ValidationError

/-- Well-formedness of a loaded recipe, as the catalog guarantees it. -/
def Recipe.wellFormed (r : Recipe) : Bool :=
  !r.inputs.isEmpty &&
  r.inputs.all (fun c => decide (0 < c.quantity)) &&
  decide (0 < r.output.quantity) &&
  dupFree (r.inputs.map CostItem.itemKind) &&
  r.inputs.all (fun c => !(c.itemKind == r.output.itemKind))

/-- Modelled from the spec: `lookup(id)` resolves a recipe id in the
catalog, returning the first match or nothing. -/
def lookup (catalog : RecipeCatalog) (id : String) : Option Recipe :=
  catalog.find? (fun r => r.id == id)

/-! ## Craftability Evaluator (modelled from the spec, section 4.3) -/

/-- Number of crafts one input allows: `floor(quantityOf(kind) / quantity)`. -/
def inputLimit (inv : Inventory) (c : CostItem) : Nat :=
  inv.quantityOf c.itemKind / c.quantity

/-- Modelled from the spec: `maxCraftable` is the minimum over the
inputs of the recipe of `floor(inventory.quantityOf(input.itemKind) /
input.quantity)` (0 for the degenerate empty-input list, which validation
rules out). -/
def maxCraftable (inv : Inventory) (r : Recipe) : Nat :=
  match r.inputs with
  | [] => 0
  | c :: rest => (rest.map (inputLimit inv)).foldl min (inputLimit inv c)

/-- Modelled from the spec: `evaluate(catalog, inventory)` returns one
`CraftableResult` per catalog recipe, in catalog order, recipes with
`maxCraftable = 0` included. -/
def evaluate (catalog : RecipeCatalog) (inv : Inventory) : List CraftableResult :=
  catalog.map (fun r => { recipe := r, maxCraftable := maxCraftable inv r })

/-! ## Proximity Gate (modelled from the spec, section 4.4) -/

/-- Modelled from the spec: a 2D coordinate (exact rational components so
the gate is decidable). -/
structure Vec2 where
  x : ℚ
  y : ℚ
deriving DecidableEq, Repr

/-- Modelled from the spec: a worktable entity is a position and an
interaction radius. -/
structure WorktableEntity where
  position : Vec2
  interactionRadius : ℚ
deriving DecidableEq, Repr

/-- Squared Euclidean distance between two points. -/
def distSq (a b : Vec2) : ℚ :=
  (a.x - b.x) ^ 2 + (a.y - b.y) ^ 2

/-- Modelled from the spec: `isInRange(playerPosition, worktables)` is true
iff the Euclidean distance from the player to some worktable is at most that
interaction radius (inclusive boundary); encoded by comparing squared
distances, which is equivalent and keeps the predicate executable. -/
def isInRange (playerPosition : Vec2) (worktables : List WorktableEntity) : Bool :=
  worktables.any (fun w =>
    decide (0 ≤ w.interactionRadius) &&
    decide (distSq playerPosition w.position ≤ w.interactionRadius ^ 2))

/-! ## Crafting Transaction Executor (modelled from the spec, section 4.5) -/

/-- Modelled from the spec: `craft(recipeId, count, inventory, catalog,
gateResult)` checks, in order, the proximity gate, the recipe id (an
unknown id is a caller-contract violation, modelled as `none`), the
affordability of every input, and the output capacity, and only then
debits the inputs and credits the output.  Internal store errors on the
pre-validated mutation path are programming errors, also modelled as
`none`. -/
def craft (recipeId : String) (count : Nat) (inv : Inventory)
    (catalog : RecipeCatalog) (gateResult : Bool) :
    Option (CraftOutcome × Inventory) :=
  if gateResult then
    match lookup catalog recipeId with
    | none => none
    | some r =>
      if r.inputs.any (fun c => inv.quantityOf c.itemKind < c.quantity * count) then
        some (.Failure .InsufficientResources, inv)
      else if inv.canAdd r.output.itemKind (r.output.quantity * count) then
        match inv.removeList (r.inputs.map (fun c => (c.itemKind, c.quantity * count))) with
        | .error _ => none
        | .ok inv1 =>
          match inv1.add r.output.itemKind (r.output.quantity * count) with
          | .error _ => none
          | .ok inv2 =>
            some (.Success
              (r.inputs.map (fun c => { itemKind := c.itemKind, quantity := c.quantity * count }))
              { itemKind := r.output.itemKind, quantity := r.output.quantity * count },
              inv2)
      else
        some (.Failure .InventoryFull, inv)
  else
    some (.Failure .NotInRange, inv)

/-- Modelled from the spec: crafting a recipe "exactly n times" (section
8) is n successive single-count craft calls with the gate true, each of
which must succeed. -/
def craftSeq (recipeId : String) (catalog : RecipeCatalog) :
    Nat → Inventory → Option Inventory
  | 0, inv => some inv
  | n + 1, inv =>
    match craft recipeId 1 inv catalog true with
    | some (.Success _ _, inv1) => craftSeq recipeId catalog n inv1
    | _ => none

/-! ## The font-subsetting script, embedded from `tools/subset_fredoka.py` -/

/-- One observable action of the straight-line subsetting script: a print,
a process exit, or the call into `fontTools.subset.main`. -/
inductive ScriptEvent where
  | print (message : String)
  | exitWith (code : Nat)
  | runSubset (args : List String)
deriving DecidableEq, Repr

/-- The input font path of the script. -/
def inputFont : String := "fonts/fredoka-one-latin-400-normal.woff2"

/-- The output font path of the script. -/
def outputFont : String := "fonts/fredoka-subset.woff2"

/-- The characters the script keeps. -/
def subsetText : String := "pictoco"

/-- The argument list the script builds for `pyftsubset`. -/
def subsetArgs : List String :=
  [inputFont,
   "--text=" ++ subsetText,
   "--flavor=woff2",
   "--output-file=" ++ outputFont,
   "--layout-features=*",
   "--no-hinting",
   "--desubroutinize",
   "--verbose"]

/-- The events `tools/subset_fredoka.py` performs, as a function of
whether the input font file exists: a missing input prints an error and
exits with status 1 before `subset_main` is reached; otherwise the script
announces itself, runs the subsetter and reports completion. -/
def subsetFredoka (inputFontExists : Bool) : List ScriptEvent :=
  if inputFontExists then
    [.print ("Subsetting " ++ inputFont ++ " to " ++ outputFont ++
             " with text \x27" ++ subsetText ++ "\x27..."),
     .runSubset subsetArgs,
     .print "Subsetting complete."]
  else
    [.print ("Error: Input font " ++ inputFont ++ " not found."),
     .exitWith 1]

/-- Whether an event is the call into the subsetter. -/
def ScriptEvent.isRunSubset : ScriptEvent → Bool
  | .runSubset _ => true
  | _ => false

/-! ## The game-verification script, embedded from
`verification/verify_game.py` (the checks after the start-button click) -/

/-- The page state `verify_features` inspects after clicking start: whether
the hotbar element exists, and the computed display style of the crafting modal
(`none` as an `Option` models the modal element being absent, on which the
script would crash). -/
structure GamePage where
  hotbarExists : Bool
  craftingModalDisplay : Option String
deriving DecidableEq, Repr

/-- The hotbar error message of `verify_features`. -/
def hotbarErrorMsg : String := "Error: Hotbar not found"

/-- The crafting-modal error message of `verify_features`, for a given
computed display style. -/
def modalErrorMsg (display : String) : String :=
  "Error: Crafting modal should be hidden, but is " ++ display

/-- The screenshot message of `verify_features`. -/
def screenshotMsg : String := "Screenshot saved to verification/game_running.png"

/-- The checks of `verify_features` after the start-button click: a missing
hotbar prints an error and returns; otherwise the computed crafting-modal
display is read (a pure `getComputedStyle`, no page mutation) and an error
is printed iff it is not `"none"`; the page state is passed through
unchanged.  `none` models the crash on a missing modal element. -/
def verifyFeatures (page : GamePage) : Option (List String × GamePage) :=
  if page.hotbarExists then
    match page.craftingModalDisplay with
    | none => none
    | some display =>
      some ((if display == "none" then [] else [modalErrorMsg display]) ++
              [screenshotMsg],
            page)
  else
    some ([hotbarErrorMsg], page)

/-! ## Helper lemmas about the Inventory Store -/

/-- Finding a kind in a kind-preserving map commutes with the map. -/
theorem find?_kind_map (f : StackEntry → StackEntry)
    (hf : ∀ e, (f e).itemKind = e.itemKind) (l : List StackEntry) (k : ItemKind) :
    (l.map f).find? (fun e => e.itemKind == k) =
      (l.find? (fun e => e.itemKind == k)).map f := by
  rw [List.find?_map]
  have hp : ((fun e => e.itemKind == k) ∘ f) = (fun e => e.itemKind == k) := by
    funext e
    simp [Function.comp, hf]
  rw [hp]

/-- Finding one kind is unaffected by filtering out a different kind. -/
theorem find?_kind_filter (l : List StackEntry) (k k2 : ItemKind) (h : k2 ≠ k) :
    (l.filter (fun x => !(x.itemKind == k))).find? (fun e => e.itemKind == k2) =
      l.find? (fun e => e.itemKind == k2) := by
  induction l with
  | nil => rfl
  | cons a l ih =>
    by_cases hk : a.itemKind = k
    · have h2 : (a.itemKind == k2) = false := by
        refine beq_eq_false_iff_ne.mpr ?_
        rw [hk]
        exact fun hh => h hh.symm
      simp [List.filter_cons, beq_iff_eq.mpr hk, List.find?_cons, h2, ih]
    · by_cases hk2 : a.itemKind = k2
      · simp [List.filter_cons, beq_eq_false_iff_ne.mpr hk, List.find?_cons,
          beq_iff_eq.mpr hk2]
      · simp [List.filter_cons, beq_eq_false_iff_ne.mpr hk, List.find?_cons,
          beq_eq_false_iff_ne.mpr hk2, ih]

/-- A kind with a positive quantity is present. -/
theorem present_of_quantityOf_pos (inv : Inventory) (k : ItemKind)
    (h : 1 ≤ inv.quantityOf k) :
    inv.entries.any (fun e => e.itemKind == k) = true := by
  unfold Inventory.quantityOf at h
  cases hfind : inv.entries.find? (fun e => e.itemKind == k) with
  | none => rw [hfind] at h; simp at h
  | some e =>
    have hek : (e.itemKind == k) = true := by simpa using List.find?_some hfind
    exact List.any_eq_true.mpr ⟨e, List.mem_of_find?_eq_some hfind, hek⟩

/-- A present kind is found with exactly the quantity `quantityOf` reports. -/
theorem find?_of_present (inv : Inventory) (k : ItemKind)
    (h : inv.entries.any (fun e => e.itemKind == k) = true) :
    ∃ e, inv.entries.find? (fun e => e.itemKind == k) = some e ∧
      e.quantity = inv.quantityOf k := by
  cases hfind : inv.entries.find? (fun e => e.itemKind == k) with
  | none =>
    obtain ⟨e, hmem, he⟩ := List.any_eq_true.mp h
    exact absurd (List.find?_eq_none.mp hfind e hmem) (by simp [he])
  | some e =>
    exact ⟨e, rfl, by unfold Inventory.quantityOf; rw [hfind]⟩

/-- `add` succeeds exactly when `canAdd` allows it. -/
theorem add_ok_of_canAdd (inv : Inventory) (k : ItemKind) (q : Nat)
    (h : inv.canAdd k q = true) : ∃ inv2, inv.add k q = .ok inv2 := by
  unfold Inventory.canAdd at h
  unfold Inventory.add
  rcases Bool.or_eq_true_iff.mp h with hp | hlen
  · rw [if_pos hp]
    exact ⟨_, rfl⟩
  · by_cases hp : inv.entries.any (fun e => e.itemKind == k) = true
    · rw [if_pos hp]
      exact ⟨_, rfl⟩
    · rw [if_neg hp, if_pos (of_decide_eq_true hlen)]
      exact ⟨_, rfl⟩

/-- `add` increases the quantity of the added kind by exactly the request. -/
theorem quantityOf_add_self (inv : Inventory) (k : ItemKind) (q : Nat)
    (inv2 : Inventory) (h : inv.add k q = .ok inv2) :
    inv2.quantityOf k = inv.quantityOf k + q := by
  unfold Inventory.add at h
  by_cases hp : inv.entries.any (fun e => e.itemKind == k) = true
  · rw [if_pos hp] at h
    obtain ⟨e, hfind, hq⟩ := find?_of_present inv k hp
    have hek : (e.itemKind == k) = true := by simpa using List.find?_some hfind
    have h2 := Except.ok.inj h
    unfold Inventory.quantityOf
    rw [← h2]
    simp only
    rw [find?_kind_map _ (fun e => by by_cases he : (e.itemKind == k) = true <;> simp [he]),
      hfind]
    simp [Option.map, hek, ← hq]
  · rw [if_neg hp] at h
    by_cases hlen : inv.entries.length < inv.capacity
    · rw [if_pos hlen] at h
      have h2 := Except.ok.inj h
      have hnone : inv.entries.find? (fun e => e.itemKind == k) = none := by
        refine List.find?_eq_none.mpr ?_
        intro e hmem he
        exact hp (List.any_eq_true.mpr ⟨e, hmem, he⟩)
      unfold Inventory.quantityOf
      rw [← h2]
      simp only
      rw [List.find?_append, hnone]
      simp [List.find?_cons, Inventory.quantityOf, hnone]
    · rw [if_neg hlen] at h
      exact absurd h (by simp)

/-- `add` leaves the quantity of every other kind unchanged. -/
theorem quantityOf_add_other (inv : Inventory) (k : ItemKind) (q : Nat)
    (inv2 : Inventory) (h : inv.add k q = .ok inv2) (k2 : ItemKind) (hk : k2 ≠ k) :
    inv2.quantityOf k2 = inv.quantityOf k2 := by
  unfold Inventory.add at h
  by_cases hp : inv.entries.any (fun e => e.itemKind == k) = true
  · rw [if_pos hp] at h
    have h2 := Except.ok.inj h
    unfold Inventory.quantityOf
    rw [← h2]
    simp only
    rw [find?_kind_map _ (fun e => by by_cases he : (e.itemKind == k) = true <;> simp [he])]
    cases hfind : inv.entries.find? (fun e => e.itemKind == k2) with
    | none => rfl
    | some e =>
      have hek2 : (e.itemKind == k2) = true := by simpa using List.find?_some hfind
      have hekk : (e.itemKind == k) = false := by
        refine beq_eq_false_iff_ne.mpr ?_
        rw [beq_iff_eq.mp hek2]
        exact hk
      simp [Option.map, hekk]
  · rw [if_neg hp] at h
    by_cases hlen : inv.entries.length < inv.capacity
    · rw [if_pos hlen] at h
      have h2 := Except.ok.inj h
      unfold Inventory.quantityOf
      rw [← h2]
      simp only
      rw [List.find?_append]
      cases hfind : inv.entries.find? (fun e => e.itemKind == k2) with
      | none =>
        have hknew : (({ itemKind := k, quantity := q } : StackEntry).itemKind == k2) = false :=
          beq_eq_false_iff_ne.mpr (fun hh => hk hh.symm)
        simp [List.find?_cons, hknew]
      | some e => rfl
    · rw [if_neg hlen] at h
      exact absurd h (by simp)

/-- After a successful `add` the added kind is present. -/
theorem add_present_self (inv : Inventory) (k : ItemKind) (q : Nat)
    (inv2 : Inventory) (h : inv.add k q = .ok inv2) :
    inv2.entries.any (fun e => e.itemKind == k) = true := by
  unfold Inventory.add at h
  by_cases hp : inv.entries.any (fun e => e.itemKind == k) = true
  · rw [if_pos hp] at h
    have h2 := Except.ok.inj h
    rw [← h2]
    obtain ⟨e, hmem, he⟩ := List.any_eq_true.mp hp
    refine List.any_eq_true.mpr ⟨_, List.mem_map_of_mem _ hmem, ?_⟩
    have he2 : (e.itemKind == k) = true := he
    simp [he2]
  · rw [if_neg hp] at h
    by_cases hlen : inv.entries.length < inv.capacity
    · rw [if_pos hlen] at h
      have h2 := Except.ok.inj h
      rw [← h2]
      refine List.any_eq_true.mpr ⟨{ itemKind := k, quantity := q }, ?_, by simp⟩
      simp
    · rw [if_neg hlen] at h
      exact absurd h (by simp)

/-- `add` keeps the capacity. -/
theorem add_capacity (inv : Inventory) (k : ItemKind) (q : Nat)
    (inv2 : Inventory) (h : inv.add k q = .ok inv2) :
    inv2.capacity = inv.capacity := by
  unfold Inventory.add at h
  repeat' split at h
  · rw [← Except.ok.inj h]
  · rw [← Except.ok.inj h]
  · exact absurd h (by simp)

/-- `remove` succeeds whenever the kind is present with enough quantity. -/
theorem remove_ok_of_present (inv : Inventory) (k : ItemKind) (q : Nat)
    (hp : inv.entries.any (fun e => e.itemKind == k) = true)
    (hq : q ≤ inv.quantityOf k) : ∃ inv2, inv.remove k q = .ok inv2 := by
  obtain ⟨e, hfind, he⟩ := find?_of_present inv k hp
  unfold Inventory.remove
  rw [hfind]
  dsimp only
  have hlt : ¬ e.quantity < q := by omega
  rw [if_neg hlt]
  by_cases heq : (e.quantity == q) = true
  · rw [if_pos heq]
    exact ⟨_, rfl⟩
  · rw [if_neg heq]
    exact ⟨_, rfl⟩

/-- `remove` decreases the quantity of the removed kind by exactly the request. -/
theorem quantityOf_remove_self (inv : Inventory) (k : ItemKind) (q : Nat)
    (inv2 : Inventory) (h : inv.remove k q = .ok inv2) :
    inv2.quantityOf k = inv.quantityOf k - q := by
  unfold Inventory.remove at h
  cases hfind : inv.entries.find? (fun e => e.itemKind == k) with
  | none => rw [hfind] at h; exact absurd h (by simp)
  | some e =>
    rw [hfind] at h
    dsimp only at h
    have hqe : inv.quantityOf k = e.quantity := by
      unfold Inventory.quantityOf; rw [hfind]
    by_cases hlt : e.quantity < q
    · rw [if_pos hlt] at h; exact absurd h (by simp)
    · rw [if_neg hlt] at h
      by_cases heq : (e.quantity == q) = true
      · rw [if_pos heq] at h
        have h2 := Except.ok.inj h
        have hnone : (inv.entries.filter (fun x => !(x.itemKind == k))).find?
            (fun e => e.itemKind == k) = none := by
          refine List.find?_eq_none.mpr ?_
          intro x hmem hx
          have hkeep := List.of_mem_filter hmem
          rw [hx] at hkeep
          exact absurd hkeep (by simp)
        unfold Inventory.quantityOf
        rw [← h2]
        simp only
        rw [hnone, hfind]
        dsimp only
        have heqq : e.quantity = q := beq_iff_eq.mp heq
        omega
      · rw [if_neg heq] at h
        have h2 := Except.ok.inj h
        have hek : (e.itemKind == k) = true := by simpa using List.find?_some hfind
        unfold Inventory.quantityOf
        rw [← h2]
        simp only
        rw [find?_kind_map _ (fun e => by by_cases he : (e.itemKind == k) = true <;> simp [he]),
          hfind]
        simp [Option.map, hek, hqe]

/-- `remove` leaves the quantity of every other kind unchanged. -/
theorem quantityOf_remove_other (inv : Inventory) (k : ItemKind) (q : Nat)
    (inv2 : Inventory) (h : inv.remove k q = .ok inv2) (k2 : ItemKind) (hk : k2 ≠ k) :
    inv2.quantityOf k2 = inv.quantityOf k2 := by
  unfold Inventory.remove at h
  cases hfind : inv.entries.find? (fun e => e.itemKind == k) with
  | none => rw [hfind] at h; exact absurd h (by simp)
  | some e =>
    rw [hfind] at h
    dsimp only at h
    by_cases hlt : e.quantity < q
    · rw [if_pos hlt] at h; exact absurd h (by simp)
    · rw [if_neg hlt] at h
      by_cases heq : (e.quantity == q) = true
      · rw [if_pos heq] at h
        have h2 := Except.ok.inj h
        unfold Inventory.quantityOf
        rw [← h2]
        simp only
        rw [find?_kind_filter _ _ _ hk]
      · rw [if_neg heq] at h
        have h2 := Except.ok.inj h
        unfold Inventory.quantityOf
        rw [← h2]
        simp only
        rw [find?_kind_map _ (fun e => by by_cases he : (e.itemKind == k) = true <;> simp [he])]
        cases hfind2 : inv.entries.find? (fun e => e.itemKind == k2) with
        | none => rfl
        | some e2 =>
          have hek2 : (e2.itemKind == k2) = true := by simpa using List.find?_some hfind2
          have hekk : (e2.itemKind == k) = false := by
            refine beq_eq_false_iff_ne.mpr ?_
            rw [beq_iff_eq.mp hek2]
            exact hk
          simp [Option.map, hekk]

/-- `remove` does not change the presence of other kinds. -/
theorem remove_any_other (inv : Inventory) (k : ItemKind) (q : Nat)
    (inv2 : Inventory) (h : inv.remove k q = .ok inv2) (k2 : ItemKind) (hk : k2 ≠ k) :
    inv2.entries.any (fun e => e.itemKind == k2) =
      inv.entries.any (fun e => e.itemKind == k2) := by
  unfold Inventory.remove at h
  cases hfind0 : inv.entries.find? (fun e => e.itemKind == k) with
  | none => rw [hfind0] at h; exact absurd h (by simp)
  | some e =>
    rw [hfind0] at h
    dsimp only at h
    by_cases hlt : e.quantity < q
    · rw [if_pos hlt] at h; exact absurd h (by simp)
    · rw [if_neg hlt] at h
      by_cases heq : (e.quantity == q) = true
      · rw [if_pos heq] at h
        have h2 := Except.ok.inj h
        rw [← h2]
        simp only
        rw [Bool.eq_iff_iff, List.any_eq_true, List.any_eq_true]
        constructor
        · rintro ⟨x, hmem, hx⟩
          exact ⟨x, List.mem_of_mem_filter hmem, hx⟩
        · rintro ⟨x, hmem, hx⟩
          have hxk2 : x.itemKind = k2 := beq_iff_eq.mp hx
          refine ⟨x, List.mem_filter.mpr ⟨hmem, ?_⟩, hx⟩
          simp [hxk2, beq_eq_false_iff_ne.mpr hk]
      · rw [if_neg heq] at h
        have h2 := Except.ok.inj h
        rw [← h2]
        simp only
        rw [Bool.eq_iff_iff, List.any_eq_true, List.any_eq_true]
        constructor
        · rintro ⟨x, hmem, hx⟩
          obtain ⟨y, hymem, hy⟩ := List.mem_map.mp hmem
          refine ⟨y, hymem, ?_⟩
          rw [← hy] at hx
          by_cases hc : (y.itemKind == k) = true
          · simpa [hc] using hx
          · simpa [hc] using hx
        · rintro ⟨x, hmem, hx⟩
          have hxk : (x.itemKind == k) = false := by
            refine beq_eq_false_iff_ne.mpr ?_
            rw [beq_iff_eq.mp hx]
            exact fun hh => hk hh
          refine ⟨_, List.mem_map_of_mem _ hmem, ?_⟩
          simp [hxk, hx]

/-- `remove` never lengthens the entry list and keeps the capacity. -/
theorem remove_length_capacity (inv : Inventory) (k : ItemKind) (q : Nat)
    (inv2 : Inventory) (h : inv.remove k q = .ok inv2) :
    inv2.entries.length ≤ inv.entries.length ∧ inv2.capacity = inv.capacity := by
  unfold Inventory.remove at h
  repeat' split at h
  · exact absurd h (by simp)
  · exact absurd h (by simp)
  · rw [← Except.ok.inj h]
    exact ⟨List.length_filter_le _ _, rfl⟩
  · rw [← Except.ok.inj h]
    constructor
    · simp
    · rfl

/-- `dupFree` decides `Nodup` on kind lists. -/
theorem dupFree_iff (l : List ItemKind) : dupFree l = true ↔ l.Nodup := by
  induction l with
  | nil => simp [dupFree]
  | cons k rest ih =>
    rw [List.nodup_cons, ← ih]
    rw [show dupFree (k :: rest) = (!rest.contains k && dupFree rest) from rfl]
    rw [Bool.and_eq_true, Bool.not_eq_true']
    constructor
    · rintro ⟨h1, h2⟩
      exact ⟨by simpa using h1, h2⟩
    · rintro ⟨h1, h2⟩
      exact ⟨by simpa using h1, h2⟩

/-- A kind-preserving map keeps the list of kinds. -/
theorem map_kind_eq (f : StackEntry → StackEntry)
    (hf : ∀ e, (f e).itemKind = e.itemKind) (l : List StackEntry) :
    (l.map f).map StackEntry.itemKind = l.map StackEntry.itemKind := by
  rw [List.map_map]
  have : (StackEntry.itemKind ∘ f) = StackEntry.itemKind := funext hf
  rw [this]

/-- `remove` preserves the Inventory Store invariants. -/
theorem remove_WF (inv : Inventory) (k : ItemKind) (q : Nat) (inv2 : Inventory)
    (hwf : InvWF inv) (h : inv.remove k q = .ok inv2) : InvWF inv2 := by
  obtain ⟨hq1, hnd, hlen⟩ := hwf
  unfold Inventory.remove at h
  cases hfind : inv.entries.find? (fun e => e.itemKind == k) with
  | none => rw [hfind] at h; exact absurd h (by simp)
  | some e =>
    rw [hfind] at h
    dsimp only at h
    by_cases hlt : e.quantity < q
    · rw [if_pos hlt] at h; exact absurd h (by simp)
    · rw [if_neg hlt] at h
      by_cases heq : (e.quantity == q) = true
      · rw [if_pos heq] at h
        rw [← Except.ok.inj h]
        refine ⟨?_, ?_, ?_⟩
        · intro x hx
          exact hq1 x (List.mem_of_mem_filter hx)
        · exact hnd.sublist ((List.filter_sublist _).map _)
        · exact le_trans (List.length_filter_le _ _) hlen
      · rw [if_neg heq] at h
        rw [← Except.ok.inj h]
        have hqe : q < e.quantity := by
          have h1 : ¬ e.quantity = q := by simpa using heq
          omega
        refine ⟨?_, ?_, ?_⟩
        · intro x hx
          obtain ⟨y, hymem, hy⟩ := List.mem_map.mp hx
          by_cases hyk : (y.itemKind == k) = true
          · have hek : (e.itemKind == k) = true := by
              simpa using List.find?_some hfind
            have hye : y = e := by
              refine List.inj_on_of_nodup_map hnd hymem
                (List.mem_of_find?_eq_some hfind) ?_
              rw [beq_iff_eq.mp hyk, beq_iff_eq.mp hek]
            rw [← hy, if_pos hyk]
            show 1 ≤ y.quantity - q
            rw [hye]
            omega
          · rw [← hy, if_neg hyk]
            exact hq1 y hymem
        · rw [map_kind_eq _ (fun e => by
            by_cases he : (e.itemKind == k) = true <;> simp [he])]
          exact hnd
        · simpa using hlen

/-- `add` of a positive quantity preserves the Inventory Store invariants. -/
theorem add_WF (inv : Inventory) (k : ItemKind) (q : Nat) (inv2 : Inventory)
    (hwf : InvWF inv) (hq : 1 ≤ q) (h : inv.add k q = .ok inv2) : InvWF inv2 := by
  obtain ⟨hq1, hnd, hlen⟩ := hwf
  unfold Inventory.add at h
  by_cases hp : inv.entries.any (fun e => e.itemKind == k) = true
  · rw [if_pos hp] at h
    rw [← Except.ok.inj h]
    refine ⟨?_, ?_, by simpa using hlen⟩
    · intro x hx
      obtain ⟨y, hymem, hy⟩ := List.mem_map.mp hx
      by_cases hyk : (y.itemKind == k) = true
      · rw [← hy, if_pos hyk]
        show 1 ≤ y.quantity + q
        have := hq1 y hymem
        omega
      · rw [← hy, if_neg hyk]
        exact hq1 y hymem
    · rw [map_kind_eq _ (fun e => by
        by_cases he : (e.itemKind == k) = true <;> simp [he])]
      exact hnd
  · rw [if_neg hp] at h
    by_cases hl : inv.entries.length < inv.capacity
    · rw [if_pos hl] at h
      rw [← Except.ok.inj h]
      refine ⟨?_, ?_, ?_⟩
      · intro x hx
        rcases List.mem_append.mp hx with hx | hx
        · exact hq1 x hx
        · simp at hx
          rw [hx]
          exact hq
      · rw [List.map_append, List.nodup_append]
        refine ⟨hnd, by simp, ?_⟩
        intro a ha hb
        simp at hb
        subst hb
        obtain ⟨y, hymem, hy⟩ := List.mem_map.mp ha
        exact absurd (List.any_eq_true.mpr ⟨y, hymem, by simp [hy]⟩) hp
      · simp only [List.length_append, List.length_cons, List.length_nil]
        omega
    · rw [if_neg hl] at h
      exact absurd h (by simp)

/-- `removeList` preserves the Inventory Store invariants. -/
theorem removeList_WF : ∀ (pairs : List (ItemKind × Nat)) (inv inv2 : Inventory),
    InvWF inv → inv.removeList pairs = .ok inv2 → InvWF inv2 := by
  intro pairs
  induction pairs with
  | nil =>
    intro inv inv2 hwf h
    rw [← Except.ok.inj h]
    exact hwf
  | cons p rest ih =>
    intro inv inv2 hwf h
    obtain ⟨k, q⟩ := p
    unfold Inventory.removeList at h
    cases hrm : inv.remove k q with
    | error e => rw [hrm] at h; exact absurd h (by simp)
    | ok inv1 =>
      rw [hrm] at h
      exact ih inv1 inv2 (remove_WF inv k q inv1 hwf hrm) h

/-- Full characterisation of a successful `removeList` on pairwise-distinct
kinds, each present in sufficient positive quantity. -/
theorem removeList_spec : ∀ (pairs : List (ItemKind × Nat)) (inv : Inventory),
    (pairs.map Prod.fst).Nodup →
    (∀ p ∈ pairs, 1 ≤ p.2 ∧ p.2 ≤ inv.quantityOf p.1) →
    ∃ inv2, inv.removeList pairs = .ok inv2 ∧
      (∀ p ∈ pairs, inv2.quantityOf p.1 = inv.quantityOf p.1 - p.2) ∧
      (∀ k, k ∉ pairs.map Prod.fst → inv2.quantityOf k = inv.quantityOf k) ∧
      (∀ k, k ∉ pairs.map Prod.fst →
        inv2.entries.any (fun e => e.itemKind == k) =
          inv.entries.any (fun e => e.itemKind == k)) ∧
      inv2.entries.length ≤ inv.entries.length ∧ inv2.capacity = inv.capacity := by
  intro pairs
  induction pairs with
  | nil =>
    intro inv _ _
    exact ⟨inv, rfl, by simp, fun k _ => rfl, fun k _ => rfl, le_refl _, rfl⟩
  | cons p rest ih =>
    intro inv hnodup hbound
    obtain ⟨k, q⟩ := p
    have hhead : 1 ≤ q ∧ q ≤ inv.quantityOf k := hbound (k, q) (List.mem_cons_self _ _)
    have hk_notin : k ∉ rest.map Prod.fst := by
      rw [List.map_cons, List.nodup_cons] at hnodup
      exact hnodup.1
    have hrest_ne : ∀ p2 ∈ rest, p2.1 ≠ k := by
      intro p2 hp2 hEq
      exact hk_notin (hEq ▸ List.mem_map_of_mem Prod.fst hp2)
    have hpres : inv.entries.any (fun e => e.itemKind == k) = true :=
      present_of_quantityOf_pos inv k (by omega)
    obtain ⟨inv1, hrm⟩ := remove_ok_of_present inv k q hpres hhead.2
    have hq_self := quantityOf_remove_self inv k q inv1 hrm
    have hq_other := fun k2 hk2 => quantityOf_remove_other inv k q inv1 hrm k2 hk2
    have hany_other := fun k2 hk2 => remove_any_other inv k q inv1 hrm k2 hk2
    have hlencap := remove_length_capacity inv k q inv1 hrm
    obtain ⟨inv2, hrl, hin, hother, hany, hlen, hcap⟩ := ih inv1
      (by rw [List.map_cons, List.nodup_cons] at hnodup; exact hnodup.2)
      (by
        intro p2 hp2
        have := hbound p2 (List.mem_cons_of_mem _ hp2)
        rw [← hq_other p2.1 (hrest_ne p2 hp2)] at this
        exact this)
    refine ⟨inv2, ?_, ?_, ?_, ?_, ?_, ?_⟩
    · unfold Inventory.removeList
      rw [hrm]
      exact hrl
    · intro p2 hp2
      rcases List.mem_cons.mp hp2 with rfl | hmem
      · rw [hother k hk_notin, hq_self]
      · rw [hin p2 hmem, hq_other p2.1 (hrest_ne p2 hmem)]
    · intro k2 hk2
      rw [List.map_cons] at hk2
      have hk2r : k2 ∉ rest.map Prod.fst := fun hh => hk2 (List.mem_cons_of_mem _ hh)
      have hk2k : k2 ≠ k := fun hh => hk2 (hh ▸ List.mem_cons_self _ _)
      rw [hother k2 hk2r, hq_other k2 hk2k]
    · intro k2 hk2
      rw [List.map_cons] at hk2
      have hk2r : k2 ∉ rest.map Prod.fst := fun hh => hk2 (List.mem_cons_of_mem _ hh)
      have hk2k : k2 ≠ k := fun hh => hk2 (hh ▸ List.mem_cons_self _ _)
      rw [hany k2 hk2r, hany_other k2 hk2k]
    · exact le_trans hlen hlencap.1
    · rw [hcap, hlencap.2]

/-! ## Claim C4: gate false means NotInRange and no mutation -/

/-- C4: whenever `gateResult` is false, `craft` returns
`Failure(NotInRange)` with the inventory untouched, regardless of the
recipe id, the count, the catalog and the inventory contents; in
particular `quantityOf` is unchanged for every item kind. -/
theorem craft_gate_false_not_in_range :
    ∀ (recipeId : String) (count : Nat) (inv : Inventory) (catalog : RecipeCatalog),
      craft recipeId count inv catalog false =
        some (.Failure .NotInRange, inv) ∧
      ∀ out inv2, craft recipeId count inv catalog false = some (out, inv2) →
        ∀ k, inv2.quantityOf k = inv.quantityOf k := by
  intro recipeId count inv catalog
  refine ⟨rfl, ?_⟩
  intro out inv2 h k
  have h0 : craft recipeId count inv catalog false =
      some (.Failure .NotInRange, inv) := rfl
  have h2 := Option.some.inj (h0.symm.trans h)
  rw [← ((Prod.mk.injEq _ _ _ _).mp h2).2]

/-! ## Claim C1: a failed craft never touches the inventory -/

/-- C1: every `craft` call that returns a `Failure` outcome (whatever the
reason) leaves the inventory exactly as it was — the capacity check runs
before any input is removed, so no materials are consumed on a failed
craft; in particular `quantityOf` is unchanged for every item kind. -/
theorem craft_failure_preserves_inventory :
    ∀ (recipeId : String) (count : Nat) (inv : Inventory) (catalog : RecipeCatalog)
      (gateResult : Bool) (reason : FailureReason) (inv2 : Inventory),
      craft recipeId count inv catalog gateResult = some (.Failure reason, inv2) →
      inv2 = inv ∧ ∀ k, inv2.quantityOf k = inv.quantityOf k := by
  intro recipeId count inv catalog gateResult reason inv2 h
  have hinv : inv2 = inv := by
    unfold craft at h
    repeat' split at h
    all_goals simp_all
  exact ⟨hinv, fun k => by rw [hinv]⟩

/-- C1 witness: the frame property applied to a concrete failing craft — a
full one-slot inventory, a valid recipe, gate true, failing with
`InventoryFull`. -/
theorem craft_failure_preserves_inventory_witness :
    (Inventory.mk [⟨"wood", 5⟩] 1) = (Inventory.mk [⟨"wood", 5⟩] 1) ∧
    ∀ k, (Inventory.mk [⟨"wood", 5⟩] 1).quantityOf k =
      (Inventory.mk [⟨"wood", 5⟩] 1).quantityOf k :=
  craft_failure_preserves_inventory "R1" 1 (Inventory.mk [⟨"wood", 5⟩] 1)
    [⟨"R1", [⟨"wood", 2⟩], ⟨"plank", 1⟩⟩] true .InventoryFull
    (Inventory.mk [⟨"wood", 5⟩] 1) (by decide)

/-! ## Claim C9: the missing-input guard of the subsetting script -/

/-- C9: when the input font does not exist the script prints the error
message and exits with status 1, and the subsetter is never invoked (so no
output font is produced); the subsetter runs exactly when the input
exists. -/
theorem subset_fredoka_guard :
    subsetFredoka false =
      [.print ("Error: Input font " ++ inputFont ++ " not found."), .exitWith 1] ∧
    (subsetFredoka false).all (fun e => !e.isRunSubset) = true ∧
    (subsetFredoka true).any ScriptEvent.isRunSubset = true := by
  refine ⟨rfl, rfl, rfl⟩

/-! ## Claim C10: the crafting-modal visibility check -/

/-- C10: after the start click, when the hotbar exists and the crafting
modal element is present with computed display style `display`, the script
prints the error message about the crafting modal iff `display` is not
`"none"`, and the page state is passed through unchanged (the check
performs no page mutation). -/
theorem verify_game_modal_check :
    ∀ (page : GamePage) (display : String),
      page.hotbarExists = true →
      page.craftingModalDisplay = some display →
      ∃ msgs, verifyFeatures page = some (msgs, page) ∧
        (modalErrorMsg display ∈ msgs ↔ display ≠ "none") := by
  intro page display hhot hmodal
  have hv : verifyFeatures page =
      some ((if display == "none" then [] else [modalErrorMsg display]) ++
        [screenshotMsg], page) := by
    unfold verifyFeatures
    rw [if_pos hhot, hmodal]
  by_cases hd : display = "none"
  · subst hd
    rw [if_pos (by rfl)] at hv
    refine ⟨[screenshotMsg], hv, ?_⟩
    constructor
    · intro hmem
      have : modalErrorMsg "none" = screenshotMsg := by
        simpa using hmem
      exact absurd this (by simp [modalErrorMsg, screenshotMsg])
    · intro hne
      exact absurd rfl hne
  · rw [if_neg (by simpa using hd)] at hv
    refine ⟨[modalErrorMsg display, screenshotMsg], hv, ?_⟩
    constructor
    · intro _
      exact hd
    · intro _
      exact List.mem_cons_self _ _

/-- C10 witness: the modal check at a concrete page whose modal is shown
with display style `block`. -/
theorem verify_game_modal_check_witness :
    ∃ msgs, verifyFeatures ⟨true, some "block"⟩ = some (msgs, ⟨true, some "block"⟩) ∧
      (modalErrorMsg "block" ∈ msgs ↔ "block" ≠ "none") :=
  verify_game_modal_check ⟨true, some "block"⟩ "block" rfl rfl

/-! ## Claim C7: add followed by remove restores the quantity -/

/-- C7: for every inventory, item kind and quantity, a successful
`add(k, n)` followed by `remove(k, n)` succeeds and restores `quantityOf k`
to its pre-add value. -/
theorem add_remove_roundtrip :
    ∀ (inv : Inventory) (k : ItemKind) (n : Nat) (inv1 : Inventory),
      inv.add k n = .ok inv1 →
      ∃ inv2, inv1.remove k n = .ok inv2 ∧ inv2.quantityOf k = inv.quantityOf k := by
  intro inv k n inv1 h
  have hp1 := add_present_self inv k n inv1 h
  have hq1 := quantityOf_add_self inv k n inv1 h
  obtain ⟨inv2, h2⟩ := remove_ok_of_present inv1 k n hp1 (by omega)
  refine ⟨inv2, h2, ?_⟩
  have h3 := quantityOf_remove_self inv1 k n inv2 h2
  omega

/-- C7 witness: the round trip applied to adding 3 wood to an empty
four-slot inventory. -/
theorem add_remove_roundtrip_witness :
    ∃ inv2, (Inventory.mk [{ itemKind := "wood", quantity := 3 }] 4).remove "wood" 3 =
        .ok inv2 ∧
      inv2.quantityOf "wood" = (Inventory.mk [] 4).quantityOf "wood" :=
  add_remove_roundtrip (Inventory.mk [] 4) "wood" 3
    (Inventory.mk [{ itemKind := "wood", quantity := 3 }] 4) (by rfl)

/-! ## Helper lemmas about the Craftability Evaluator -/

/-- A left fold with `min` never exceeds its initial value. -/
theorem foldl_min_le_init (l : List Nat) (a : Nat) : l.foldl min a ≤ a := by
  induction l generalizing a with
  | nil => simp
  | cons x l ih => exact le_trans (ih (min a x)) (min_le_left a x)

/-- A left fold with `min` never exceeds any list element. -/
theorem foldl_min_le_mem : ∀ (l : List Nat) (a x : Nat), x ∈ l → l.foldl min a ≤ x := by
  intro l
  induction l with
  | nil => intro a x hx; simp at hx
  | cons y l ih =>
    intro a x hx
    rcases List.mem_cons.mp hx with rfl | hmem
    · exact le_trans (foldl_min_le_init l (min a x)) (min_le_right a x)
    · exact ih (min a y) x hmem

/-- A left fold with `min` is its initial value or some list element. -/
theorem foldl_min_attained : ∀ (l : List Nat) (a : Nat),
    l.foldl min a = a ∨ ∃ x ∈ l, l.foldl min a = x := by
  intro l
  induction l with
  | nil => intro a; exact Or.inl rfl
  | cons y l ih =>
    intro a
    rcases ih (min a y) with h | ⟨x, hx, hfx⟩
    · rcases Nat.le_total a y with hay | hya
      · left
        rw [List.foldl_cons, h, min_eq_left hay]
      · right
        exact ⟨y, List.mem_cons_self _ _, by rw [List.foldl_cons, h, min_eq_right hya]⟩
    · right
      exact ⟨x, List.mem_cons_of_mem _ hx, by rw [List.foldl_cons]; exact hfx⟩

/-- `maxCraftable` is at most the own limit of each input. -/
theorem maxCraftable_le (inv : Inventory) (r : Recipe) (c : CostItem)
    (hc : c ∈ r.inputs) : maxCraftable inv r ≤ inputLimit inv c := by
  unfold maxCraftable
  cases hi : r.inputs with
  | nil => rw [hi] at hc; simp at hc
  | cons c0 rest =>
    rw [hi] at hc
    dsimp only
    rcases List.mem_cons.mp hc with rfl | hmem
    · exact foldl_min_le_init _ _
    · exact foldl_min_le_mem _ _ _ (List.mem_map_of_mem _ hmem)

/-- For a recipe with at least one input, `maxCraftable` is attained at
the limit of some input. -/
theorem maxCraftable_attained (inv : Inventory) (r : Recipe)
    (hne : r.inputs ≠ []) :
    ∃ c ∈ r.inputs, maxCraftable inv r = inputLimit inv c := by
  unfold maxCraftable
  cases hi : r.inputs with
  | nil => exact absurd hi hne
  | cons c0 rest =>
    dsimp only
    rcases foldl_min_attained (rest.map (inputLimit inv)) (inputLimit inv c0) with
      h | ⟨x, hx, hfx⟩
    · exact ⟨c0, List.mem_cons_self _ _, h⟩
    · obtain ⟨c, hcmem, hcx⟩ := List.mem_map.mp hx
      exact ⟨c, List.mem_cons_of_mem _ hcmem, by rw [hfx, ← hcx]⟩

/-! ## Claim C2: the evaluator reports the exact craftable counts -/

/-- C2: `evaluate` returns one result per catalog recipe in catalog order
(zero-craftable recipes included), and each `maxCraftable` is the minimum
over the inputs of the recipe of `floor(quantityOf(kind) / quantity)` — no
larger than the limit of any input, attained at some input, and 0 whenever a
required input is absent. -/
theorem evaluate_craftability :
    ∀ (catalog : RecipeCatalog) (inv : Inventory),
      (evaluate catalog inv).map CraftableResult.recipe = catalog ∧
      ∀ res ∈ evaluate catalog inv,
        (∀ c ∈ res.recipe.inputs,
          res.maxCraftable ≤ inv.quantityOf c.itemKind / c.quantity) ∧
        (res.recipe.inputs ≠ [] → ∃ c ∈ res.recipe.inputs,
          res.maxCraftable = inv.quantityOf c.itemKind / c.quantity) ∧
        (∀ c ∈ res.recipe.inputs, inv.quantityOf c.itemKind = 0 →
          res.maxCraftable = 0) := by
  intro catalog inv
  constructor
  · unfold evaluate
    rw [List.map_map]
    have hcomp : (CraftableResult.recipe ∘ fun r =>
        ({ recipe := r, maxCraftable := maxCraftable inv r } : CraftableResult)) = id := rfl
    rw [hcomp, List.map_id]
  · intro res hres
    obtain ⟨r, hrmem, hr⟩ := List.mem_map.mp hres
    rw [← hr]
    dsimp only
    refine ⟨?_, ?_, ?_⟩
    · intro c hc
      exact maxCraftable_le inv r c hc
    · intro hne
      exact maxCraftable_attained inv r hne
    · intro c hc hq0
      have h1 := maxCraftable_le inv r c hc
      have h2 : inputLimit inv c = 0 := by
        unfold inputLimit
        rw [hq0]
        exact Nat.zero_div _
      omega

/-! ## Claim C3: the proximity gate is the inclusive Euclidean test -/

/-- C3: `isInRange` is true iff the Euclidean distance from the player to
some worktable is at most the interaction radius of that worktable (the
boundary counts as in range), and it is false on the empty worktable
set. -/
theorem proximity_gate_iff :
    ∀ (p : Vec2) (ws : List WorktableEntity),
      (isInRange p ws = true ↔
        ∃ w ∈ ws, Real.sqrt ((distSq p w.position : ℝ)) ≤
          ((w.interactionRadius : ℚ) : ℝ)) ∧
      isInRange p [] = false := by
  intro p ws
  refine ⟨?_, rfl⟩
  unfold isInRange
  rw [List.any_eq_true]
  constructor
  · rintro ⟨w, hw, hcond⟩
    rw [Bool.and_eq_true] at hcond
    have h0 : (0 : ℚ) ≤ w.interactionRadius := of_decide_eq_true hcond.1
    have h1 : distSq p w.position ≤ w.interactionRadius ^ 2 :=
      of_decide_eq_true hcond.2
    refine ⟨w, hw, Real.sqrt_le_iff.mpr ⟨?_, ?_⟩⟩
    · exact_mod_cast h0
    · exact_mod_cast h1
  · rintro ⟨w, hw, hle⟩
    have h2 := Real.sqrt_le_iff.mp hle
    refine ⟨w, hw, ?_⟩
    rw [Bool.and_eq_true]
    constructor
    · exact decide_eq_true (by exact_mod_cast h2.1)
    · exact decide_eq_true (by exact_mod_cast h2.2)

/-! ## Claim C8: catalog validation -/

/-- A validated definition loads into a well-formed recipe. -/
theorem toRecipe_wellFormed (d : RecipeDef) (h : d.valid = true) :
    (toRecipe d).wellFormed = true := by
  unfold RecipeDef.valid at h
  simp only [Bool.and_eq_true] at h
  obtain ⟨⟨⟨⟨hne, hqs⟩, hout⟩, hdup⟩, hcol⟩ := h
  unfold Recipe.wellFormed toRecipe
  simp only [Bool.and_eq_true]
  refine ⟨⟨⟨⟨?_, ?_⟩, ?_⟩, ?_⟩, ?_⟩
  · rw [Bool.not_eq_true'] at hne ⊢
    cases hi : d.inputs with
    | nil => rw [hi] at hne; simp at hne
    | cons c cs => simp
  · rw [List.all_eq_true]
    intro c hc
    obtain ⟨c0, hc0, hcc⟩ := List.mem_map.mp hc
    have h1 := of_decide_eq_true (List.all_eq_true.mp hqs c0 hc0)
    rw [← hcc]
    try dsimp only
    exact decide_eq_true (by omega)
  · try dsimp only
    have h1 := of_decide_eq_true hout
    exact decide_eq_true (by omega)
  · rw [dupFree_iff] at hdup ⊢
    try dsimp only
    rw [List.map_map]
    have hcomp : (CostItem.itemKind ∘ fun c =>
        ({ itemKind := c.itemKind, quantity := c.quantity.toNat } : CostItem)) =
        CostItemDef.itemKind := rfl
    rw [hcomp]
    exact hdup
  · rw [List.all_eq_true]
    intro c hc
    obtain ⟨c0, hc0, hcc⟩ := List.mem_map.mp hc
    have h1 := List.all_eq_true.mp hcol c0 hc0
    rw [← hcc]
    try dsimp only
    simpa using h1

/-- C8: `load` fails with `ValidationError` whenever some definition has no
input, a non-positive input or output quantity, a duplicate input kind, or
an output kind among its inputs; and a successfully loaded catalog
contains only well-formed recipes (so an invalid catalog is never
usable). -/
theorem load_validation :
    ∀ (defs : List RecipeDef),
      ((∃ d ∈ defs,
          d.inputs = [] ∨
          (∃ c ∈ d.inputs, c.quantity ≤ 0) ∨
          d.output.quantity ≤ 0 ∨
          ¬ (d.inputs.map CostItemDef.itemKind).Nodup ∨
          (∃ c ∈ d.inputs, c.itemKind = d.output.itemKind)) →
        load defs = .error .ValidationError) ∧
      (∀ cat, load defs = .ok cat → ∀ r ∈ cat, r.wellFormed = true) := by
  intro defs
  constructor
  · rintro ⟨d, hd, hbad⟩
    unfold load
    by_cases hall : defs.all RecipeDef.valid = true
    · exfalso
      have hv := List.all_eq_true.mp hall d hd
      unfold RecipeDef.valid at hv
      simp only [Bool.and_eq_true] at hv
      obtain ⟨⟨⟨⟨hne, hqs⟩, hout⟩, hdup⟩, hcol⟩ := hv
      rcases hbad with h | h | h | h | h
      · rw [h] at hne
        simp at hne
      · obtain ⟨c, hc, hcq⟩ := h
        have h1 := of_decide_eq_true (List.all_eq_true.mp hqs c hc)
        omega
      · have h1 := of_decide_eq_true hout
        omega
      · exact h ((dupFree_iff _).mp hdup)
      · obtain ⟨c, hc, hck⟩ := h
        have h1 := List.all_eq_true.mp hcol c hc
        simp [hck] at h1
    · rw [if_neg hall]
  · intro cat hcat r hr
    unfold load at hcat
    by_cases hall : defs.all RecipeDef.valid = true
    · rw [if_pos hall] at hcat
      rw [← Except.ok.inj hcat] at hr
      obtain ⟨d, hd, hdr⟩ := List.mem_map.mp hr
      rw [← hdr]
      exact toRecipe_wellFormed d (List.all_eq_true.mp hall d hd)
    · rw [if_neg hall] at hcat
      exact absurd hcat (by simp)

/-! ## Claim C5: the store operations preserve the invariants -/

/-- C5: starting from an inventory satisfying the invariants — positive
stack quantities, at most one stack per kind, entry count within capacity
— every successful `add` of a positive quantity, every successful
`remove`, and every `craft` over a well-formed catalog with a positive
count yields an inventory satisfying the invariants again (no state with a
non-positive stack is ever exposed). -/
theorem inventory_invariants_preserved :
    ∀ (inv : Inventory) (k : ItemKind) (q : Nat) (recipeId : String) (count : Nat)
      (catalog : RecipeCatalog) (gateResult : Bool),
      InvWF inv →
      (1 ≤ q → ∀ inv1, inv.add k q = .ok inv1 → InvWF inv1) ∧
      (∀ inv2, inv.remove k q = .ok inv2 → InvWF inv2) ∧
      (1 ≤ count → (∀ r ∈ catalog, r.wellFormed = true) →
        ∀ out inv3, craft recipeId count inv catalog gateResult = some (out, inv3) →
          InvWF inv3) := by
  intro inv k q recipeId count catalog gateResult hwf
  refine ⟨?_, ?_, ?_⟩
  · intro hq inv1 h
    exact add_WF inv k q inv1 hwf hq h
  · intro inv2 h
    exact remove_WF inv k q inv2 hwf h
  · intro hcount hcat out inv3 h
    unfold craft at h
    by_cases hg : gateResult = true
    · rw [if_pos hg] at h
      cases hfind : lookup catalog recipeId with
      | none => rw [hfind] at h; exact absurd h (by simp)
      | some r =>
        rw [hfind] at h
        dsimp only at h
        by_cases hins : (r.inputs.any fun c =>
            decide (inv.quantityOf c.itemKind < c.quantity * count)) = true
        · rw [if_pos hins] at h
          rw [← ((Prod.mk.injEq _ _ _ _).mp (Option.some.inj h)).2]
          exact hwf
        · rw [if_neg hins] at h
          by_cases hcan : inv.canAdd r.output.itemKind (r.output.quantity * count) = true
          · rw [if_pos hcan] at h
            cases hrl : inv.removeList
                (r.inputs.map fun c => (c.itemKind, c.quantity * count)) with
            | error e => rw [hrl] at h; exact absurd h (by simp)
            | ok invA =>
              rw [hrl] at h
              dsimp only at h
              cases hadd : invA.add r.output.itemKind (r.output.quantity * count) with
              | error e => rw [hadd] at h; exact absurd h (by simp)
              | ok invB =>
                rw [hadd] at h
                dsimp only at h
                have hB : invB = inv3 := ((Prod.mk.injEq _ _ _ _).mp (Option.some.inj h)).2
                have hA : InvWF invA := removeList_WF _ inv invA hwf hrl
                have hrwf := hcat r (List.mem_of_find?_eq_some hfind)
                have hout : 1 ≤ r.output.quantity := by
                  unfold Recipe.wellFormed at hrwf
                  simp only [Bool.and_eq_true] at hrwf
                  have := of_decide_eq_true hrwf.1.1.2
                  omega
                have hpos : 1 ≤ r.output.quantity * count := by
                  have := Nat.mul_le_mul hout hcount
                  simpa using this
                rw [← hB]
                exact add_WF invA _ _ invB hA hpos hadd
          · rw [if_neg hcan] at h
            rw [← ((Prod.mk.injEq _ _ _ _).mp (Option.some.inj h)).2]
            exact hwf
    · rw [if_neg hg] at h
      rw [← ((Prod.mk.injEq _ _ _ _).mp (Option.some.inj h)).2]
      exact hwf

/-- C5 witness: the invariants at a concrete two-slot inventory holding
five wood, with a one-recipe catalog. -/
theorem inventory_invariants_preserved_witness :
    (1 ≤ 1 → ∀ inv1,
      (Inventory.mk [{ itemKind := "wood", quantity := 5 }] 2).add "wood" 1 = .ok inv1 →
      InvWF inv1) ∧
    (∀ inv2,
      (Inventory.mk [{ itemKind := "wood", quantity := 5 }] 2).remove "wood" 1 = .ok inv2 →
      InvWF inv2) ∧
    (1 ≤ 1 →
      (∀ r ∈ [Recipe.mk "R1" [{ itemKind := "wood", quantity := 2 }]
          { itemKind := "plank", quantity := 1 }], r.wellFormed = true) →
      ∀ out inv3,
        craft "R1" 1 (Inventory.mk [{ itemKind := "wood", quantity := 5 }] 2)
          [Recipe.mk "R1" [{ itemKind := "wood", quantity := 2 }]
            { itemKind := "plank", quantity := 1 }] true = some (out, inv3) →
        InvWF inv3) :=
  inventory_invariants_preserved _ "wood" 1 "R1" 1 _ true (by decide)

/-! ## Helper lemmas about the Executor -/

/-- Unpacking of `Recipe.wellFormed` into its five clauses. -/
theorem wellFormed_parts (r : Recipe) (h : r.wellFormed = true) :
    r.inputs ≠ [] ∧
    (∀ c ∈ r.inputs, 1 ≤ c.quantity) ∧
    1 ≤ r.output.quantity ∧
    (r.inputs.map CostItem.itemKind).Nodup ∧
    (∀ c ∈ r.inputs, c.itemKind ≠ r.output.itemKind) := by
  unfold Recipe.wellFormed at h
  simp only [Bool.and_eq_true] at h
  obtain ⟨⟨⟨⟨hne, hqs⟩, hout⟩, hdup⟩, hcol⟩ := h
  refine ⟨?_, ?_, ?_, ?_, ?_⟩
  · intro hEq
    rw [hEq] at hne
    simp at hne
  · intro c hc
    have h1 := of_decide_eq_true (List.all_eq_true.mp hqs c hc)
    omega
  · have h1 := of_decide_eq_true hout
    omega
  · exact (dupFree_iff _).mp hdup
  · intro c hc
    have h1 := List.all_eq_true.mp hcol c hc
    simpa using h1

/-- A fully affordable craft with room for the output succeeds and moves
the quantities exactly as the recipe dictates. -/
theorem craft_success_spec (r : Recipe) (catalog : RecipeCatalog) (inv : Inventory)
    (count : Nat) (hwf : r.wellFormed = true)
    (hfind : lookup catalog r.id = some r)
    (hcount : 1 ≤ count)
    (haff : ∀ c ∈ r.inputs, c.quantity * count ≤ inv.quantityOf c.itemKind)
    (hcan : inv.canAdd r.output.itemKind (r.output.quantity * count) = true) :
    ∃ inv2, craft r.id count inv catalog true = some (.Success
        (r.inputs.map fun c => { itemKind := c.itemKind, quantity := c.quantity * count })
        { itemKind := r.output.itemKind, quantity := r.output.quantity * count }, inv2) ∧
      (∀ c ∈ r.inputs, inv2.quantityOf c.itemKind =
        inv.quantityOf c.itemKind - c.quantity * count) ∧
      inv2.quantityOf r.output.itemKind =
        inv.quantityOf r.output.itemKind + r.output.quantity * count ∧
      inv2.entries.any (fun e => e.itemKind == r.output.itemKind) = true := by
  obtain ⟨hne, hqs, hout, hdup, hcol⟩ := wellFormed_parts r hwf
  have hfst : (r.inputs.map fun c => (c.itemKind, c.quantity * count)).map Prod.fst =
      r.inputs.map CostItem.itemKind := by
    rw [List.map_map]
    rfl
  have hnodup2 : ((r.inputs.map fun c => (c.itemKind, c.quantity * count)).map Prod.fst).Nodup := by
    rw [hfst]
    exact hdup
  have hbound : ∀ p ∈ r.inputs.map fun c => (c.itemKind, c.quantity * count),
      1 ≤ p.2 ∧ p.2 ≤ inv.quantityOf p.1 := by
    intro p hp
    obtain ⟨c, hc, hcp⟩ := List.mem_map.mp hp
    rw [← hcp]
    refine ⟨?_, haff c hc⟩
    have h1 := Nat.mul_le_mul (hqs c hc) hcount
    simpa using h1
  obtain ⟨invA, hrl, hin, hotherq, hanyo, hlen, hcap⟩ :=
    removeList_spec (r.inputs.map fun c => (c.itemKind, c.quantity * count)) inv hnodup2 hbound
  have hout_notin : r.output.itemKind ∉
      (r.inputs.map fun c => (c.itemKind, c.quantity * count)).map Prod.fst := by
    rw [hfst]
    intro hmem
    obtain ⟨c, hc, hck⟩ := List.mem_map.mp hmem
    exact hcol c hc hck
  have hcanA : invA.canAdd r.output.itemKind (r.output.quantity * count) = true := by
    unfold Inventory.canAdd at hcan ⊢
    rcases Bool.or_eq_true_iff.mp hcan with hp | hl
    · rw [hanyo _ hout_notin, hp]
      simp
    · rw [Bool.or_eq_true_iff]
      right
      rw [hcap]
      exact decide_eq_true (lt_of_le_of_lt hlen (of_decide_eq_true hl))
  obtain ⟨invB, hadd⟩ := add_ok_of_canAdd invA _ _ hcanA
  refine ⟨invB, ?_, ?_, ?_, ?_⟩
  · unfold craft
    rw [if_pos rfl, hfind]
    dsimp only
    have hins : (r.inputs.any fun c =>
        decide (inv.quantityOf c.itemKind < c.quantity * count)) = false := by
      rw [List.any_eq_false]
      intro c hc
      rw [decide_eq_true_eq]
      exact Nat.not_lt.mpr (haff c hc)
    rw [if_neg (by simp [hins]), if_pos hcan, hrl]
    dsimp only
    rw [hadd]
  · intro c hc
    have hretr := hin (c.itemKind, c.quantity * count) (List.mem_map_of_mem _ hc)
    rw [quantityOf_add_other invA _ _ invB hadd c.itemKind (hcol c hc)]
    exact hretr
  · rw [quantityOf_add_self invA _ _ invB hadd, hotherq _ hout_notin]
  · exact add_present_self invA _ _ invB hadd

/-- A craft whose inventory lacks some input fails with
`InsufficientResources` and leaves the inventory untouched. -/
theorem craft_insufficient (r : Recipe) (catalog : RecipeCatalog) (inv : Inventory)
    (count : Nat) (hfind : lookup catalog r.id = some r)
    (hshort : ∃ c ∈ r.inputs, inv.quantityOf c.itemKind < c.quantity * count) :
    craft r.id count inv catalog true =
      some (.Failure .InsufficientResources, inv) := by
  unfold craft
  rw [if_pos rfl, hfind]
  dsimp only
  obtain ⟨c, hc, hlt⟩ := hshort
  rw [if_pos (List.any_eq_true.mpr ⟨c, hc, decide_eq_true hlt⟩)]

/-- One unfolding step of `craftSeq`. -/
theorem craftSeq_succ (recipeId : String) (catalog : RecipeCatalog) (n : Nat)
    (inv : Inventory) :
    craftSeq recipeId catalog (n + 1) inv =
      match craft recipeId 1 inv catalog true with
      | some (.Success _ _, inv1) => craftSeq recipeId catalog n inv1
      | _ => none := rfl

/-- Iterating single crafts: with room for the output and `j` crafts worth
of every input, `j` single crafts succeed and consume exactly `j` times
each input. -/
theorem craftSeq_spec (r : Recipe) (catalog : RecipeCatalog)
    (hwf : r.wellFormed = true) (hfind : lookup catalog r.id = some r) :
    ∀ (j : Nat) (inv : Inventory),
      inv.canAdd r.output.itemKind r.output.quantity = true →
      (∀ c ∈ r.inputs, j * c.quantity ≤ inv.quantityOf c.itemKind) →
      ∃ inv2, craftSeq r.id catalog j inv = some inv2 ∧
        (∀ c ∈ r.inputs, inv2.quantityOf c.itemKind =
          inv.quantityOf c.itemKind - j * c.quantity) ∧
        inv2.canAdd r.output.itemKind r.output.quantity = true := by
  intro j
  induction j with
  | zero =>
    intro inv hcan hbound
    exact ⟨inv, rfl, by simp, hcan⟩
  | succ j ih =>
    intro inv hcan hbound
    have haff : ∀ c ∈ r.inputs, c.quantity * 1 ≤ inv.quantityOf c.itemKind := by
      intro c hc
      have h1 := hbound c hc
      have h2 : (j + 1) * c.quantity = j * c.quantity + c.quantity :=
        Nat.succ_mul j c.quantity
      omega
    have hcan1 : inv.canAdd r.output.itemKind (r.output.quantity * 1) = true := hcan
    obtain ⟨invB, hcraft, hin, houtq, hpres⟩ :=
      craft_success_spec r catalog inv 1 hwf hfind (le_refl 1) haff hcan1
    have hcanB : invB.canAdd r.output.itemKind r.output.quantity = true := by
      unfold Inventory.canAdd
      rw [hpres]
      simp
    obtain ⟨inv2, hseq, hin2, hcan2⟩ := ih invB hcanB (by
      intro c hc
      rw [hin c hc]
      have h1 := hbound c hc
      have h2 : (j + 1) * c.quantity = j * c.quantity + c.quantity :=
        Nat.succ_mul j c.quantity
      omega)
    refine ⟨inv2, ?_, ?_, hcan2⟩
    · rw [craftSeq_succ, hcraft]
      exact hseq
    · intro c hc
      rw [hin2 c hc, hin c hc]
      have h1 := hbound c hc
      have h2 : (j + 1) * c.quantity = j * c.quantity + c.quantity :=
        Nat.succ_mul j c.quantity
      omega

/-! ## Claim C6: maxCraftable counts the exact number of crafts -/

/-- C6 counterexample: the claim as stated is false — with a full one-slot
inventory holding five wood, `maxCraftable` of the wood-to-plank recipe is
2, yet even the first craft fails (`InventoryFull`, since the plank output
has no stack and no free slot), so crafting exactly `maxCraftable` times
does not succeed. -/
theorem craftable_count_counterexample :
    maxCraftable (Inventory.mk [{ itemKind := "wood", quantity := 5 }] 1)
      (Recipe.mk "R1" [{ itemKind := "wood", quantity := 2 }]
        { itemKind := "plank", quantity := 1 }) = 2 ∧
    craftSeq "R1" [Recipe.mk "R1" [{ itemKind := "wood", quantity := 2 }]
        { itemKind := "plank", quantity := 1 }] 2
      (Inventory.mk [{ itemKind := "wood", quantity := 5 }] 1) = none ∧
    craft "R1" 1 (Inventory.mk [{ itemKind := "wood", quantity := 5 }] 1)
      [Recipe.mk "R1" [{ itemKind := "wood", quantity := 2 }]
        { itemKind := "plank", quantity := 1 }] true =
      some (.Failure .InventoryFull,
        Inventory.mk [{ itemKind := "wood", quantity := 5 }] 1) := by
  refine ⟨by rfl, by rfl, by rfl⟩

/-- C6 (amended): if additionally the inventory can accept the output (an
existing output stack or a free slot), then with the gate true, crafting
the recipe exactly `maxCraftable` times succeeds and the next craft fails
with `InsufficientResources`. -/
theorem craftable_count_exact :
    ∀ (r : Recipe) (catalog : RecipeCatalog) (inv : Inventory),
      r.wellFormed = true →
      lookup catalog r.id = some r →
      inv.canAdd r.output.itemKind r.output.quantity = true →
      ∃ inv2, craftSeq r.id catalog (maxCraftable inv r) inv = some inv2 ∧
        craft r.id 1 inv2 catalog true =
          some (.Failure .InsufficientResources, inv2) := by
  intro r catalog inv hwf hfind hcan
  obtain ⟨hne, hqs, hout, hdup, hcol⟩ := wellFormed_parts r hwf
  have hboundm : ∀ c ∈ r.inputs,
      (maxCraftable inv r) * c.quantity ≤ inv.quantityOf c.itemKind := by
    intro c hc
    have h1 := maxCraftable_le inv r c hc
    exact (Nat.le_div_iff_mul_le (hqs c hc)).mp h1
  obtain ⟨inv2, hseq, hin2, hcan2⟩ :=
    craftSeq_spec r catalog hwf hfind (maxCraftable inv r) inv hcan hboundm
  refine ⟨inv2, hseq, ?_⟩
  obtain ⟨c0, hc0, hattain⟩ := maxCraftable_attained inv r hne
  apply craft_insufficient r catalog inv2 1 hfind
  refine ⟨c0, hc0, ?_⟩
  rw [hin2 c0 hc0]
  have hq0 : inv.quantityOf c0.itemKind / c0.quantity = maxCraftable inv r :=
    hattain.symm
  have hlt : inv.quantityOf c0.itemKind <
      (maxCraftable inv r + 1) * c0.quantity :=
    (Nat.div_lt_iff_lt_mul (hqs c0 hc0)).mp (by omega)
  have h2 : (maxCraftable inv r + 1) * c0.quantity =
      (maxCraftable inv r) * c0.quantity + c0.quantity := Nat.succ_mul _ _
  have h3 := hboundm c0 hc0
  omega

/-- C6 witness: the amended claim at a two-slot inventory holding five
wood — both crafts succeed, the third fails for lack of wood. -/
theorem craftable_count_exact_witness :
    ∃ inv2, craftSeq "R1" [Recipe.mk "R1" [{ itemKind := "wood", quantity := 2 }]
          { itemKind := "plank", quantity := 1 }]
        (maxCraftable (Inventory.mk [{ itemKind := "wood", quantity := 5 }] 2)
          (Recipe.mk "R1" [{ itemKind := "wood", quantity := 2 }]
            { itemKind := "plank", quantity := 1 }))
        (Inventory.mk [{ itemKind := "wood", quantity := 5 }] 2) = some inv2 ∧
      craft "R1" 1 inv2 [Recipe.mk "R1" [{ itemKind := "wood", quantity := 2 }]
          { itemKind := "plank", quantity := 1 }] true =
        some (.Failure .InsufficientResources, inv2) :=
  craftable_count_exact
    (Recipe.mk "R1" [{ itemKind := "wood", quantity := 2 }]
      { itemKind := "plank", quantity := 1 })
    [Recipe.mk "R1" [{ itemKind := "wood", quantity := 2 }]
      { itemKind := "plank", quantity := 1 }]
    (Inventory.mk [{ itemKind := "wood", quantity := 5 }] 2)
    (by rfl) (by rfl) (by rfl)
